import Mathlib

/-!
# Verification of the deals-to-meals server (src/server.js)

Shallow embedding of the deal-aggregation pipeline, the recipe ingredient
matcher, the token manager and the profile PATCH handler of `src/server.js`,
together with theorems settling the frozen claims about them.

Modelling conventions:
* JS numbers on the paths verified here are exact decimals coming from the
  retail API; they are modelled as rationals (`ℚ`).  `Number.prototype.toFixed(2)`
  only formats a price for display, so `regularPrice`/`salePrice`/`savings`
  are carried as the underlying rational values.
* `Math.round` is `jsRound`: round half toward positive infinity.
* Product identifiers are opaque; they are modelled as naturals.
* A category fetch either fails (`none`: non-2xx status or a thrown transport
  error, swallowed by the `catch (e) {}` in the handler) or yields the
  upstream `data` array (`some records`).
* JS strings are modelled as `String`; `toLowerCase`, `split(" ")[0]` and
  `includes` are modelled on the underlying character lists.
-/

namespace DealsToMeals

/-- JS `Math.round` on rationals: round half toward positive infinity,
`Math.round(x) = ⌊x + 1/2⌋`. -/
def jsRound (q : ℚ) : ℤ := ⌊q + 1/2⌋

/-- The `items[0].price` object of a raw upstream product record.  The
`promo` field may be absent. -/
structure Price where
  regular : ℚ
  promo : Option ℚ
deriving DecidableEq

/-- One entry of the `items` array of a raw upstream product record. -/
structure RawItem where
  price : Option Price
  upc : Option String
  size : Option String
deriving DecidableEq

/-- A raw upstream product record as consumed by `/api/deals`
(`data.data[i]` in `src/server.js`).  `thumbnail` stands for the url the
code extracts from `images` (front perspective, thumbnail size). -/
structure RawProduct where
  productId : Nat
  description : String
  brand : Option String
  items : List RawItem
  thumbnail : Option String
deriving DecidableEq

/-- A produced deal entry (`src/server.js` lines 278–283).  `regularPrice`,
`salePrice` and `savings` carry the rational values that the source formats
with `toFixed(2)`. -/
structure DealItem where
  id : Nat
  upc : String
  name : String
  brand : String
  category : String
  regularPrice : ℚ
  salePrice : ℚ
  savings : ℚ
  pctOff : ℤ
  size : String
  image : Option String
deriving DecidableEq

/-- Filter-and-map step for one raw record (`src/server.js` line 275–284):
the record survives exactly when `items[0].price.promo > 0`, and is then
mapped to a `DealItem` with
`pctOff = Math.round((regular - promo) / regular * 100)`. -/
def mkDeal (category : String) (p : RawProduct) : Option DealItem :=
  match p.items.head? with
  | none => none
  | some item =>
    match item.price with
    | none => none
    | some pr =>
      match pr.promo with
      | none => none
      | some promo =>
        if 0 < promo then
          some { id := p.productId, upc := item.upc.getD "", name := p.description,
                 brand := p.brand.getD "", category := category,
                 regularPrice := pr.regular, salePrice := promo,
                 savings := pr.regular - promo,
                 pctOff := jsRound ((pr.regular - promo) / pr.regular * 100),
                 size := item.size.getD "", image := p.thumbnail }
        else none

/-- Model of `(data.data || []).filter(p => p.items?.[0]?.price?.promo > 0).map(...)`
for one category response. -/
def dealsOfData (category : String) (data : List RawProduct) : List DealItem :=
  data.filterMap (mkDeal category)

/-- The `seen`-set dedup filter of `src/server.js` lines 289–291, with the
set of already seen ids made explicit. -/
def dedupGo (seen : List Nat) : List DealItem → List DealItem
  | [] => []
  | d :: ds => if d.id ∈ seen then dedupGo seen ds else d :: dedupGo (d.id :: seen) ds

/-- Deduplication by `id`, keeping the first occurrence (the `seen` set
starts empty). -/
def dedupById (l : List DealItem) : List DealItem := dedupGo [] l

/-- One step of the stable descending insertion sort: the new element `x`
(earlier in the input) is placed before every element whose `pctOff` is not
strictly larger. -/
def insertDesc (x : DealItem) : List DealItem → List DealItem
  | [] => [x]
  | y :: ys => if x.pctOff < y.pctOff then y :: insertDesc x ys else x :: y :: ys

/-- Model of `Array.prototype.sort((a, b) => b.pctOff - a.pctOff)`.  The comparator
induces a total preorder on items by `pctOff`, and `sort` is stable
(ES2019), which determines the result uniquely; it is realised here by a
stable insertion sort. -/
def sortDesc (l : List DealItem) : List DealItem := l.foldr insertDesc []

/-- The dedup/rank aggregation of `src/server.js` lines 289–293:
dedup by id, stable sort descending by `pctOff`, cap at 200. -/
def aggregateDeals (l : List DealItem) : List DealItem :=
  (sortDesc (dedupById l)).take 200

/-- The full `/api/deals` reshaping applied to the list of per-category
upstream responses, in the order the records were pushed into
`allProducts`. -/
def apiDeals (responses : List (String × List RawProduct)) : List DealItem :=
  aggregateDeals (responses.flatMap fun cr => dealsOfData cr.1 cr.2)

/-- The chunking performed by the loop
`for (let i = 0; i < categories.length; i += batchSize)` with
`categories.slice(i, i + batchSize)`: consecutive chunks of size `b`, the
last possibly smaller.  (For `b = 0` the loop would not advance; the
embedding returns `[]`, and every theorem about it assumes `0 < b`.) -/
def chunksOf : Nat → List α → List (List α)
  | _, [] => []
  | 0, _ :: _ => []
  | b + 1, x :: xs => (x :: xs).take (b + 1) :: chunksOf (b + 1) ((x :: xs).drop (b + 1))
termination_by _ l => l.length
decreasing_by simp [List.length_drop]; omega

/-- The fixed category list of `src/server.js` lines 42–55. -/
def DEAL_CATEGORIES : List String := [
  "chicken", "beef", "pork", "seafood", "turkey", "lamb", "sausage", "bacon",
  "vegetables", "fruit", "salad", "herbs", "mushrooms", "potatoes",
  "pasta", "rice", "bread", "tortilla", "noodles", "grains",
  "dairy", "cheese", "eggs", "yogurt", "butter", "cream",
  "frozen meals", "frozen vegetables", "frozen pizza", "frozen seafood",
  "snacks", "chips", "crackers", "nuts", "popcorn",
  "beverages", "juice", "soda", "water", "tea", "coffee",
  "condiments", "sauce", "oil", "dressing", "spices", "seasoning",
  "soup", "canned goods", "beans", "tomatoes", "broth",
  "breakfast", "cereal", "oatmeal", "pancake",
  "bakery", "dessert", "ice cream", "cookies",
  "deli", "lunch meat", "hot dogs"]

/-- Run the per-category fetches of one list of categories and collect the
produced deals.  A failed fetch (`none`) is swallowed by the
`catch (e) {}` / `if (!r.ok) return;` in the handler and contributes no
records. -/
def runCats (f : String → Option (List RawProduct)) (cats : List String) : List DealItem :=
  cats.flatMap fun c =>
    match f c with
    | none => []
    | some data => dealsOfData c data

/-- The batched fan-out of `/api/deals` (`src/server.js` lines 263–288):
the category list is cut into chunks of `batchSize = 8`, the chunks are
awaited strictly in sequence (the `flatMap` over `chunksOf` is the
sequential fold of the `for` loop; within a chunk all requests are issued
concurrently and all are awaited by `Promise.all`). -/
def fetchDeals (f : String → Option (List RawProduct)) : List DealItem :=
  (chunksOf 8 DEAL_CATEGORIES).flatMap (runCats f)

/-! ## Ingredient matcher (`POST /api/recipes/search`, lines 341–377) -/

/-- Model of `s.toLowerCase()` as a character list. -/
def lowerChars (s : String) : List Char := s.data.map Char.toLower

/-- Model of `s.toLowerCase().split(" ")[0]` as a character list: the characters of
the lowercased string before the first space. -/
def firstTok (s : String) : List Char :=
  (lowerChars s).takeWhile (fun c => c ≠ ' ')

/-- Boolean prefix test on character lists. -/
def isPre : List Char → List Char → Bool
  | [], _ => true
  | _ :: _, [] => false
  | a :: as, b :: bs => a == b && isPre as bs

/-- JS `s.includes(t)` on the underlying character lists: `t` occurs as a
contiguous run inside `s`. -/
def subTok (t s : List Char) : Bool :=
  (List.range (s.length + 1)).any fun i => isPre t (s.drop i)

/-- A sale item of the `ingredients` request array: a deal the client sends
back into the recipe search (`{ name, salePrice, regularPrice, savings, upc }`). -/
structure SaleIng where
  name : String
  salePrice : ℚ
  regularPrice : ℚ
  savings : ℚ
  upc : String
deriving DecidableEq

/-- A recipe ingredient returned by the recipe API (`usedIngredients[i]`);
only its `name` is consulted. -/
structure RecipeIng where
  name : String
deriving DecidableEq

/-- A coupon or boost deal as sent by the client. -/
structure Coupon where
  description : String
  brand : String
  savings : ℚ
  clipped : Bool
  couponType : String
deriving DecidableEq

/-- The `ingredientLookup` object (lines 342–346): keyed by the lowercase
first token of each sale item's name; a later item with the same key
overwrites an earlier one, so lookup returns the last such item. -/
def lookupIng (ings : List SaleIng) (key : List Char) : Option SaleIng :=
  ings.reverse.find? fun i => firstTok i.name == key

/-- Matching one recipe ingredient to a sale item (lines 356–359): first the
exact first-token lookup, then the fallback
`ingredients.find(i => i.name.toLowerCase().includes(key))`. -/
def matchDeal (ings : List SaleIng) (ri : RecipeIng) : Option SaleIng :=
  match lookupIng ings (firstTok ri.name) with
  | some d => some d
  | none => ings.find? fun i => subTok (firstTok ri.name) (lowerChars i.name)

/-- The projection pushed onto `usedSaleItems` (line 361). -/
structure UsedSale where
  name : String
  salePrice : ℚ
  regularPrice : ℚ
  savings : ℚ
  upc : String
deriving DecidableEq

/-- Projection `{ name, salePrice, regularPrice, savings, upc }` of a matched deal. -/
def mkUsed (d : SaleIng) : UsedSale :=
  { name := d.name, salePrice := d.salePrice, regularPrice := d.regularPrice,
    savings := d.savings, upc := d.upc }

/-- The per-recipe attribution loop (lines 354–365): for every used recipe
ingredient that matches a sale item, push the item and accumulate its
savings into `totalSavings`.  (`parseFloat(deal.savings) || 0` recovers the
rational `savings` value.) -/
def enrichTotals (ings : List SaleIng) (used : List RecipeIng) : List UsedSale × ℚ :=
  used.foldl
    (fun acc ri =>
      match matchDeal ings ri with
      | some d => (acc.1 ++ [mkUsed d], acc.2 + d.savings)
      | none => acc)
    ([], 0)

/-- The coupon matching predicate (lines 372–376): the lowercase
`description + " " + brand` string contains the lowercase first token of
some used recipe ingredient. -/
def couponMatch (used : List RecipeIng) (c : Coupon) : Bool :=
  used.any fun ri => subTok (firstTok ri.name) (lowerChars (c.description ++ " " ++ c.brand))

/-- The projection of a matched coupon (line 377). -/
structure ClipCoupon where
  description : String
  savings : ℚ
  clipped : Bool
  couponType : String
deriving DecidableEq

/-- Model of `couponsToClip` (lines 371–377): filter the concatenation of `coupons`
and `boostDeals` by `couponMatch` and project each survivor. -/
def couponsToClip (coupons boostDeals : List Coupon) (used : List RecipeIng) : List ClipCoupon :=
  ((coupons ++ boostDeals).filter (couponMatch used)).map fun c =>
    { description := c.description, savings := c.savings, clipped := c.clipped,
      couponType := c.couponType }

/-! ## Token manager (`/api/coupons` lines 421–426, `refreshKrogerToken`) -/

/-- A stored per-user credential (`krogerTokens` map entry). -/
structure Credential where
  accessToken : String
  refreshToken : String
  expiresAt : ℤ
deriving DecidableEq

/-- The token endpoint's successful response to a refresh-token grant. -/
structure TokenResponse where
  access_token : String
  expires_in : ℤ
deriving DecidableEq

/-- The refresh check guarding a dependent request (lines 421–426):
`if (Date.now() >= krogerData.expiresAt)` refresh once, replacing
`accessToken` and `expiresAt` (the refresh token is kept); otherwise leave
the credential untouched.  The second component counts the calls made to
`refreshKrogerToken`. -/
def ensureValid (now : ℤ) (refreshed : TokenResponse) (c : Credential) :
    Credential × Nat :=
  if c.expiresAt ≤ now then
    ({ accessToken := refreshed.access_token, refreshToken := c.refreshToken,
       expiresAt := now + refreshed.expires_in * 1000 }, 1)
  else (c, 0)

/-! ## Profile PATCH (`PATCH /api/profile`, lines 193–203) -/

/-- The whitelist of updatable profile fields (line 196). -/
def allowedFields : List String :=
  ["full_name", "household_size", "dietary_preferences", "favorite_recipe_types",
   "preferred_store"]

/-- The `updates` object built from the request body (lines 197–199): one
entry per allowed key present in the body, in whitelist order, then the
server-set `updated_at`.  The body is a JSON object modelled as a lookup
function (`none` = the key is absent / `undefined`). -/
def buildUpdates (body : String → Option α) (now : α) : List (String × α) :=
  (allowedFields.filterMap fun k => (body k).map fun v => (k, v)) ++ [("updated_at", now)]

/-- Model of `supabase.from("profiles").update(updates)`: a partial row update — the
columns named in `updates` get the new values, every other column keeps its
stored value. -/
def applyUpdates (row : String → Option α) (updates : List (String × α))
    (k : String) : Option α :=
  match updates.lookup k with
  | some v => some v
  | none => row k

/-- The full effect of the PATCH handler on the stored profile row. -/
def patchProfile (row : String → Option α) (body : String → Option α) (now : α)
    (k : String) : Option α :=
  applyUpdates row (buildUpdates body now) k

/-- Accessor for the optional chain `p.items?.[0]?.price?.promo`. -/
def promoOf (p : RawProduct) : Option ℚ :=
  p.items.head?.bind fun item => item.price.bind fun pr => pr.promo

/-- Specification-side definition, following the spec's words: the sum of
`savingsAmount` over the *distinct* matched sale items, each distinct item
counted at most once.  Compared against the source-side `enrichTotals`. -/
def specDistinctSavings (ings : List SaleIng) (used : List RecipeIng) : ℚ :=
  (((used.filterMap (matchDeal ings)).dedup).map fun d => d.savings).sum

/-! ## Concrete sample data used by witnesses and counterexamples -/

/-- A product on genuine sale: regular 4, promo 3. -/
def milkOnSale : RawProduct :=
  { productId := 1, description := "Milk", brand := none,
    items := [{ price := some { regular := 4, promo := some 3 }, upc := none, size := none }],
    thumbnail := none }

/-- The deal item produced from `milkOnSale`. -/
def milkDeal : DealItem :=
  { id := 1, upc := "", name := "Milk", brand := "", category := "dairy",
    regularPrice := 4, salePrice := 3, savings := 1, pctOff := 25, size := "",
    image := none }

/-- A record whose promotional price is positive but above the regular
price (regular 2, promo 3); it passes the `promo > 0` filter. -/
def promoAboveRegular : RawProduct :=
  { productId := 2, description := "Eggs", brand := none,
    items := [{ price := some { regular := 2, promo := some 3 }, upc := none, size := none }],
    thumbnail := none }

/-- The deal item produced from `promoAboveRegular`: sale price above the
regular price and a negative percent-off. -/
def overpricedDeal : DealItem :=
  { id := 2, upc := "", name := "Eggs", brand := "", category := "dairy",
    regularPrice := 2, salePrice := 3, savings := -1, pctOff := -50, size := "",
    image := none }

/-- A record whose promotional price is zero. -/
def freeSample : RawProduct :=
  { productId := 3, description := "Sample", brand := none,
    items := [{ price := some { regular := 1, promo := some 0 }, upc := none, size := none }],
    thumbnail := none }

/-- A mapped deal item with the given id and percent-off. -/
def sampleDeal (i : Nat) (k : ℤ) : DealItem :=
  { id := i, upc := "", name := "", brand := "", category := "",
    regularPrice := 2, salePrice := 1, savings := 1, pctOff := k, size := "",
    image := none }

/-- An input of 202 mapped records: ids 0..200 with strictly decreasing
percent-off, followed by a duplicate of id 200.  After dedup, the entry of
id 200 ranks last (position 201) and the cap of 200 drops it. -/
def manyDeals : List DealItem :=
  ((List.range 201).map fun i => sampleDeal i (300 - (i : ℤ))) ++ [sampleDeal 200 0]

/-- A sale item sent into the recipe search. -/
def chickenSale : SaleIng :=
  { name := "chicken breast", salePrice := 3, regularPrice := 5, savings := 2,
    upc := "u1" }

/-! ## Lemmas about the stable descending sort -/

theorem insertDesc_perm (x : DealItem) (l : List DealItem) :
    (insertDesc x l).Perm (x :: l) := by
  induction l with
  | nil => exact List.Perm.refl _
  | cons y ys ih =>
    by_cases h : x.pctOff < y.pctOff
    · simp only [insertDesc, if_pos h]
      exact (ih.cons y).trans (List.Perm.swap x y ys)
    · simp only [insertDesc, if_neg h]
      exact List.Perm.refl _

theorem sortDesc_perm (l : List DealItem) : (sortDesc l).Perm l := by
  induction l with
  | nil => exact List.Perm.refl _
  | cons x xs ih =>
    exact (insertDesc_perm x (sortDesc xs)).trans (ih.cons x)

theorem mem_insertDesc {a x : DealItem} {l : List DealItem} :
    a ∈ insertDesc x l ↔ a = x ∨ a ∈ l := by
  rw [(insertDesc_perm x l).mem_iff, List.mem_cons]

theorem insertDesc_pairwise {x : DealItem} {l : List DealItem}
    (h : l.Pairwise (fun a b => b.pctOff ≤ a.pctOff)) :
    (insertDesc x l).Pairwise (fun a b => b.pctOff ≤ a.pctOff) := by
  induction l with
  | nil => simp [insertDesc]
  | cons y ys ih =>
    rcases List.pairwise_cons.mp h with ⟨hy, hys⟩
    by_cases hc : x.pctOff < y.pctOff
    · simp only [insertDesc, if_pos hc]
      refine List.pairwise_cons.mpr ⟨?_, ih hys⟩
      intro b hb
      rcases mem_insertDesc.mp hb with rfl | hb
      · exact le_of_lt hc
      · exact hy b hb
    · simp only [insertDesc, if_neg hc]
      refine List.pairwise_cons.mpr ⟨?_, h⟩
      intro b hb
      rcases List.mem_cons.mp hb with rfl | hb
      · exact le_of_not_lt hc
      · exact le_trans (hy b hb) (le_of_not_lt hc)

theorem sortDesc_pairwise (l : List DealItem) :
    (sortDesc l).Pairwise (fun a b => b.pctOff ≤ a.pctOff) := by
  induction l with
  | nil => simp [sortDesc]
  | cons x xs ih => exact insertDesc_pairwise ih

theorem filter_insertDesc (v : ℤ) (x : DealItem) (l : List DealItem) :
    (insertDesc x l).filter (fun d => d.pctOff == v) =
      if x.pctOff == v then x :: l.filter (fun d => d.pctOff == v)
      else l.filter (fun d => d.pctOff == v) := by
  induction l with
  | nil => simp [insertDesc, List.filter_cons]
  | cons y ys ih =>
    by_cases hc : x.pctOff < y.pctOff
    · simp only [insertDesc, if_pos hc]
      by_cases hx : x.pctOff = v
      · have hy : (y.pctOff == v) = false := by
          simp only [beq_eq_false_iff_ne]
          omega
        simp [List.filter_cons, hy, ih, hx]
      · have hx' : (x.pctOff == v) = false := by
          simp only [beq_eq_false_iff_ne]
          exact hx
        simp [List.filter_cons, ih, hx']
    · simp only [insertDesc, if_neg hc]
      by_cases hx : x.pctOff = v
      · simp [List.filter_cons, hx]
      · have hx' : (x.pctOff == v) = false := by
          simp only [beq_eq_false_iff_ne]
          exact hx
        simp [List.filter_cons, hx']

theorem filter_sortDesc (v : ℤ) (l : List DealItem) :
    (sortDesc l).filter (fun d => d.pctOff == v) = l.filter (fun d => d.pctOff == v) := by
  induction l with
  | nil => rfl
  | cons x xs ih =>
    show (insertDesc x (sortDesc xs)).filter _ = _
    rw [filter_insertDesc, List.filter_cons, ih]

/-! ## Lemmas about the dedup filter -/

theorem dedupGo_sublist (seen : List Nat) (l : List DealItem) :
    (dedupGo seen l).Sublist l := by
  induction l generalizing seen with
  | nil => simp [dedupGo]
  | cons x xs ih =>
    by_cases h : x.id ∈ seen
    · simp only [dedupGo, if_pos h]
      exact (ih seen).cons x
    · simp only [dedupGo, if_neg h]
      exact (ih (x.id :: seen)).cons₂ x

theorem mem_dedupGo_not_seen {seen : List Nat} {l : List DealItem} {d : DealItem}
    (h : d ∈ dedupGo seen l) : d.id ∉ seen := by
  induction l generalizing seen with
  | nil => simp [dedupGo] at h
  | cons x xs ih =>
    by_cases hx : x.id ∈ seen
    · rw [dedupGo, if_pos hx] at h
      exact ih h
    · rw [dedupGo, if_neg hx] at h
      rcases List.mem_cons.mp h with rfl | h
      · exact hx
      · intro hmem
        exact ih h (List.mem_cons_of_mem _ hmem)

theorem dedupGo_pairwise (seen : List Nat) (l : List DealItem) :
    (dedupGo seen l).Pairwise (fun a b => a.id ≠ b.id) := by
  induction l generalizing seen with
  | nil => simp [dedupGo]
  | cons x xs ih =>
    by_cases hx : x.id ∈ seen
    · simpa [dedupGo, if_pos hx] using ih seen
    · rw [dedupGo, if_neg hx]
      refine List.pairwise_cons.mpr ⟨?_, ih (x.id :: seen)⟩
      intro b hb heq
      exact mem_dedupGo_not_seen hb (heq ▸ List.mem_cons_self _ _)

theorem mem_dedupGo_find {seen : List Nat} {l : List DealItem} {d : DealItem}
    (h : d ∈ dedupGo seen l) : l.find? (fun e => e.id == d.id) = some d := by
  induction l generalizing seen with
  | nil => simp [dedupGo] at h
  | cons x xs ih =>
    by_cases hx : x.id ∈ seen
    · rw [dedupGo, if_pos hx] at h
      have hne : (x.id == d.id) = false := by
        simp only [beq_eq_false_iff_ne]
        intro heq
        exact mem_dedupGo_not_seen h (heq ▸ hx)
      simp only [List.find?_cons, hne]
      exact ih h
    · rw [dedupGo, if_neg hx] at h
      rcases List.mem_cons.mp h with rfl | h
      · simp [List.find?_cons]
      · have hne : (x.id == d.id) = false := by
          simp only [beq_eq_false_iff_ne]
          intro heq
          exact mem_dedupGo_not_seen h (heq ▸ List.mem_cons_self _ _)
        simp only [List.find?_cons, hne]
        exact ih h

theorem dedupGo_filter_seen {i : Nat} {seen : List Nat} (l : List DealItem)
    (h : i ∈ seen) : (dedupGo seen l).filter (fun d => d.id == i) = [] := by
  rw [List.filter_eq_nil_iff]
  intro d hd
  simp only [beq_iff_eq]
  intro heq
  exact mem_dedupGo_not_seen hd (heq ▸ h)

theorem dedupGo_filter {i : Nat} {seen : List Nat} (l : List DealItem)
    (h : i ∉ seen) :
    (dedupGo seen l).filter (fun d => d.id == i) =
      (l.find? (fun d => d.id == i)).toList := by
  induction l generalizing seen with
  | nil => simp [dedupGo]
  | cons x xs ih =>
    by_cases hx : x.id ∈ seen
    · rw [dedupGo, if_pos hx]
      have hne : (x.id == i) = false := by
        simp only [beq_eq_false_iff_ne]
        intro heq
        exact h (heq ▸ hx)
      simp only [List.find?_cons, hne]
      exact ih h
    · rw [dedupGo, if_neg hx]
      by_cases hxi : x.id = i
      · have hb : (x.id == i) = true := by simpa using hxi
        simp only [List.filter_cons, hb, List.find?_cons, if_pos rfl]
        rw [dedupGo_filter_seen xs (by simp [hxi])]
        rfl
      · have hb : (x.id == i) = false := by
          simp only [beq_eq_false_iff_ne]
          exact hxi
        simp only [List.filter_cons, hb, List.find?_cons, if_false, Bool.false_eq_true]
        have hnotin : i ∉ x.id :: seen := by
          intro hmem
          rcases List.mem_cons.mp hmem with heq | hmem
          · exact hxi heq.symm
          · exact h hmem
        exact ih hnotin

theorem pairwise_countP_le_one {l : List DealItem} {i : Nat}
    (h : l.Pairwise (fun a b => a.id ≠ b.id)) :
    l.countP (fun d => d.id == i) ≤ 1 := by
  induction l with
  | nil => simp
  | cons x xs ih =>
    rcases List.pairwise_cons.mp h with ⟨hx, hxs⟩
    rw [List.countP_cons]
    by_cases hxi : x.id = i
    · have hz : xs.countP (fun d => d.id == i) = 0 := by
        rw [List.countP_eq_zero]
        intro b hb
        simp only [beq_iff_eq]
        intro heq
        exact hx b hb (by omega)
      simp [hz, hxi]
    · have : ((x.id == i) = true) → False := by simp [hxi]
      simp only [beq_iff_eq, hxi, if_false]
      simpa using ih hxs

/-! ## Lemmas about the chunking loop -/

theorem chunksOf_flatten (b : Nat) (l : List α) : 0 < b → (chunksOf b l).flatten = l := by
  induction b, l using chunksOf.induct with
  | case1 b => intro _; simp [chunksOf]
  | case2 => intro h; omega
  | case3 b x xs ih =>
    intro _
    rw [chunksOf]
    simp only [List.flatten_cons, ih (Nat.succ_pos b)]
    exact List.take_append_drop _ _

theorem chunksOf_length (b : Nat) (l : List α) : 0 < b →
    (chunksOf b l).length = (l.length + b - 1) / b := by
  induction b, l using chunksOf.induct with
  | case1 b =>
    intro hb
    simp only [chunksOf, List.length_nil, Nat.zero_add]
    rw [Nat.div_eq_of_lt (by omega)]
  | case2 => intro h; omega
  | case3 b x xs ih =>
    intro hb
    rw [chunksOf]
    have hlen : (List.drop (b + 1) (x :: xs)).length = xs.length + 1 - (b + 1) := by
      simp [List.length_drop]
    rw [List.length_cons, ih (Nat.succ_pos b), hlen]
    simp only [List.length_cons, Nat.succ_eq_add_one]
    rcases Nat.lt_or_ge xs.length (b + 1) with h | h
    · have h0 : xs.length + 1 - (b + 1) = 0 := by omega
      have h2 : xs.length + 1 + (b + 1) - 1 = xs.length + (b + 1) := by omega
      rw [h0, h2, Nat.div_eq_of_lt (by omega), Nat.add_div_right _ (Nat.succ_pos b),
        Nat.div_eq_of_lt (by omega)]
    · have h1 : xs.length + 1 - (b + 1) + (b + 1) - 1 = xs.length := by omega
      have h2 : xs.length + 1 + (b + 1) - 1 = xs.length + (b + 1) := by omega
      rw [h1, h2, Nat.add_div_right _ (Nat.succ_pos b)]

theorem chunksOf_get (b : Nat) (l : List α) : 0 < b →
    ∀ i (h : i < (chunksOf b l).length),
      (chunksOf b l).get ⟨i, h⟩ = (l.drop (i * b)).take b := by
  induction b, l using chunksOf.induct with
  | case1 b => intro _ i h; simp [chunksOf] at h
  | case2 => intro h; omega
  | case3 b x xs ih =>
    intro hb i
    rw [chunksOf]
    cases i with
    | zero => intro h; simp
    | succ i =>
      intro h
      have hi : i < (chunksOf (b + 1) ((x :: xs).drop (b + 1))).length := by
        simpa using h
      have heq := ih (Nat.succ_pos b) i hi
      simp only [List.get_cons_succ]
      rw [show (chunksOf (b + 1) ((x :: xs).drop (b + 1))).get ⟨i, hi⟩ =
        (((x :: xs).drop (b + 1)).drop (i * (b + 1))).take (b + 1) from heq,
        List.drop_drop]
      congr 2
      simp only [Nat.succ_eq_add_one]
      ring

theorem chunksOf_mem_le (b : Nat) (l : List α) :
    ∀ c ∈ chunksOf b l, c.length ≤ b := by
  induction b, l using chunksOf.induct with
  | case1 b => intro c hc; simp [chunksOf] at hc
  | case2 => intro c hc; simp [chunksOf] at hc
  | case3 b x xs ih =>
    intro c hc
    rw [chunksOf] at hc
    rcases List.mem_cons.mp hc with rfl | hc
    · simp [List.length_take]
    · exact ih c hc

theorem chunksOf_get_full (b : Nat) (l : List α) (hb : 0 < b) (i : Nat)
    (h : i < (chunksOf b l).length) (hlast : i + 1 < (chunksOf b l).length) :
    ((chunksOf b l).get ⟨i, h⟩).length = b := by
  have hcount := chunksOf_length b l hb
  rw [hcount] at hlast
  have hdiv : i + 2 ≤ (l.length + b - 1) / b := by omega
  have hmul := (Nat.le_div_iff_mul_le hb).mp hdiv
  have hexp : (i + 2) * b = i * b + 2 * b := by ring
  rw [chunksOf_get b l hb i h]
  simp only [List.length_take, List.length_drop]
  omega

/-! ## Rounding arithmetic -/

theorem jsRound_bounds (q : ℚ) :
    (jsRound q : ℚ) - 1/2 ≤ q ∧ q < (jsRound q : ℚ) + 1/2 := by
  constructor
  · have := Int.floor_le (q + 1/2)
    rw [jsRound]
    linarith
  · have := Int.lt_floor_add_one (q + 1/2)
    rw [jsRound]
    linarith

theorem jsRound_intCast (n : ℤ) : jsRound ((n : ℚ)) = n := by
  rw [jsRound, Int.floor_eq_iff]
  constructor
  · linarith
  · linarith

theorem jsRound_mem_Icc {q : ℚ} (h0 : 0 < q) (h1 : q < 100) :
    0 ≤ jsRound q ∧ jsRound q ≤ 100 := by
  constructor
  · rw [jsRound, Int.le_floor]
    push_cast
    linarith
  · have : jsRound q < 101 := by
      rw [jsRound, Int.floor_lt]
      push_cast
      linarith
    omega

/-! ## Lemmas about the substring matcher -/

theorem isPre_iff {t s : List Char} : isPre t s = true ↔ ∃ r, t ++ r = s := by
  induction t generalizing s with
  | nil => simp [isPre]
  | cons a as ih =>
    cases s with
    | nil => simp [isPre]
    | cons b bs =>
      simp only [isPre, Bool.and_eq_true, beq_iff_eq, ih]
      constructor
      · rintro ⟨rfl, r, rfl⟩
        exact ⟨r, rfl⟩
      · rintro ⟨r, heq⟩
        injection heq with h1 h2
        exact ⟨h1, r, h2⟩

theorem subTok_iff {t s : List Char} : subTok t s = true ↔ ∃ u v, u ++ t ++ v = s := by
  rw [subTok, List.any_eq_true]
  constructor
  · rintro ⟨i, _, hpre⟩
    rcases isPre_iff.mp hpre with ⟨v, hv⟩
    refine ⟨s.take i, v, ?_⟩
    rw [List.append_assoc, hv, List.take_append_drop]
  · rintro ⟨u, v, huv⟩
    refine ⟨u.length, ?_, ?_⟩
    · rw [List.mem_range]
      have hle : u.length ≤ s.length := by
        rw [← huv]
        simp only [List.length_append]
        omega
      omega
    · rw [isPre_iff]
      refine ⟨v, ?_⟩
      rw [← huv, List.append_assoc, List.drop_left]

theorem firstTok_append_drop (s : String) :
    firstTok s ++ (lowerChars s).dropWhile (fun c => c ≠ ' ') = lowerChars s :=
  List.takeWhile_append_dropWhile _ _

theorem matchDeal_lookup {ings : List SaleIng} {ri : RecipeIng} {e : SaleIng}
    (hl : lookupIng ings (firstTok ri.name) = some e) :
    matchDeal ings ri = some e := by
  rw [matchDeal]
  rw [hl]

theorem matchDeal_fallback {ings : List SaleIng} {ri : RecipeIng}
    (hl : lookupIng ings (firstTok ri.name) = none) :
    matchDeal ings ri =
      ings.find? fun i => subTok (firstTok ri.name) (lowerChars i.name) := by
  rw [matchDeal]
  rw [hl]

theorem matchDeal_some {ings : List SaleIng} {ri : RecipeIng} {d : SaleIng}
    (h : matchDeal ings ri = some d) :
    d ∈ ings ∧ ∃ u v, u ++ firstTok ri.name ++ v = lowerChars d.name := by
  cases hl : lookupIng ings (firstTok ri.name) with
  | some e =>
    rw [matchDeal_lookup hl] at h
    injection h with h
    subst h
    refine ⟨List.mem_reverse.mp (List.mem_of_find?_eq_some hl), ?_⟩
    have hp := List.find?_some hl
    have heq : firstTok e.name = firstTok ri.name := by simpa using hp
    refine ⟨[], (lowerChars e.name).dropWhile (fun c => c ≠ ' '), ?_⟩
    rw [List.nil_append, ← heq]
    exact List.takeWhile_append_dropWhile _ _
  | none =>
    rw [matchDeal_fallback hl] at h
    have hp0 := List.find?_some h
    have hp : subTok (firstTok ri.name) (lowerChars d.name) = true := by
      simpa using hp0
    exact ⟨List.mem_of_find?_eq_some h, subTok_iff.mp hp⟩

theorem matchDeal_isSome_iff {ings : List SaleIng} {ri : RecipeIng} :
    (matchDeal ings ri).isSome = true ↔
      ∃ i ∈ ings, ∃ u v, u ++ firstTok ri.name ++ v = lowerChars i.name := by
  constructor
  · intro h
    rcases Option.isSome_iff_exists.mp h with ⟨d, hd⟩
    rcases matchDeal_some hd with ⟨hmem, hsub⟩
    exact ⟨d, hmem, hsub⟩
  · rintro ⟨i, hmem, u, v, huv⟩
    cases hl : lookupIng ings (firstTok ri.name) with
    | some e =>
      rw [matchDeal_lookup hl]
      rfl
    | none =>
      rw [matchDeal_fallback hl, List.find?_isSome]
      exact ⟨i, hmem, subTok_iff.mpr ⟨u, v, huv⟩⟩

theorem couponMatch_iff {used : List RecipeIng} {c : Coupon} :
    couponMatch used c = true ↔
      ∃ ri ∈ used, ∃ u v,
        u ++ firstTok ri.name ++ v = lowerChars (c.description ++ " " ++ c.brand) := by
  rw [couponMatch, List.any_eq_true]
  constructor
  · rintro ⟨ri, hmem, hsub⟩
    exact ⟨ri, hmem, subTok_iff.mp hsub⟩
  · rintro ⟨ri, hmem, u, v, huv⟩
    exact ⟨ri, hmem, subTok_iff.mpr ⟨u, v, huv⟩⟩

theorem enrichTotals_foldl (ings : List SaleIng) (used : List RecipeIng) :
    ∀ acc : List UsedSale × ℚ,
      used.foldl
        (fun acc ri =>
          match matchDeal ings ri with
          | some d => (acc.1 ++ [mkUsed d], acc.2 + d.savings)
          | none => acc)
        acc =
      (acc.1 ++ (used.filterMap (matchDeal ings)).map mkUsed,
       acc.2 + ((used.filterMap (matchDeal ings)).map (fun d => d.savings)).sum) := by
  induction used with
  | nil => intro acc; simp
  | cons ri rest ih =>
    intro acc
    rw [List.foldl_cons, List.filterMap_cons]
    cases hm : matchDeal ings ri with
    | none => simpa using ih acc
    | some d =>
      rw [ih]
      simp [List.append_assoc, add_assoc]

theorem enrichTotals_eq (ings : List SaleIng) (used : List RecipeIng) :
    enrichTotals ings used =
      ((used.filterMap (matchDeal ings)).map mkUsed,
       ((used.filterMap (matchDeal ings)).map (fun d => d.savings)).sum) := by
  rw [enrichTotals, enrichTotals_foldl]
  simp

/-! ## Evaluation of the sample records -/

theorem mkDeal_milk : mkDeal "dairy" milkOnSale = some milkDeal := by
  rw [mkDeal, milkOnSale]
  simp only [List.head?_cons]
  rw [if_pos (by norm_num : (0:ℚ) < 3)]
  rw [milkDeal]
  simp only [Option.some.injEq, DealItem.mk.injEq, Option.getD_none]
  norm_num
  exact_mod_cast jsRound_intCast 25

theorem mkDeal_promoAboveRegular :
    mkDeal "dairy" promoAboveRegular = some overpricedDeal := by
  rw [mkDeal, promoAboveRegular]
  simp only [List.head?_cons]
  rw [if_pos (by norm_num : (0:ℚ) < 3)]
  rw [overpricedDeal]
  simp only [Option.some.injEq, DealItem.mk.injEq, Option.getD_none]
  norm_num
  exact_mod_cast jsRound_intCast (-50)

theorem apiDeals_single {cat : String} {p : RawProduct} {d : DealItem}
    (h : mkDeal cat p = some d) : apiDeals [(cat, [p])] = [d] := by
  rw [apiDeals]
  simp only [List.flatMap_cons, List.flatMap_nil, List.append_nil, dealsOfData,
    List.filterMap_cons, List.filterMap_nil, h]
  rw [aggregateDeals, dedupById]
  simp [dedupGo, sortDesc, insertDesc]

/-! ## Origin of produced deal items -/

theorem mkDeal_some {cat : String} {p : RawProduct} {d : DealItem}
    (h : mkDeal cat p = some d) :
    0 < d.salePrice ∧
      d.pctOff = jsRound ((d.regularPrice - d.salePrice) / d.regularPrice * 100) := by
  rw [mkDeal] at h
  split at h
  · simp at h
  · split at h
    · simp at h
    · split at h
      · simp at h
      · split at h
        · injection h with h
          subst h
          exact ⟨by assumption, rfl⟩
        · simp at h

theorem mem_aggregateDeals {xs : List DealItem} {d : DealItem}
    (h : d ∈ aggregateDeals xs) : d ∈ xs := by
  have h1 := List.mem_of_mem_take h
  have h2 := (sortDesc_perm _).mem_iff.mp h1
  exact (dedupGo_sublist [] xs).subset h2

theorem mem_apiDeals {resp : List (String × List RawProduct)} {d : DealItem}
    (h : d ∈ apiDeals resp) : ∃ cat p, mkDeal cat p = some d := by
  have h1 : d ∈ resp.flatMap fun cr => dealsOfData cr.1 cr.2 := mem_aggregateDeals h
  rcases List.mem_flatMap.mp h1 with ⟨cr, _, hd⟩
  rcases List.mem_filterMap.mp hd with ⟨p, _, hp⟩
  exact ⟨cr.1, p, hp⟩

/-! ## Claim C1 -/

/-- C1 (counterexample): it is not true that every DealItem in the
aggregated `/api/deals` output satisfies `salePrice < regularPrice` and
`0 ≤ percentOff ≤ 100` for every sequence of raw upstream records.  The
filter only requires `promo > 0`, so a record with promo 3 and regular 2
produces an item with `salePrice = 3 > 2 = regularPrice` and
`percentOff = -50`. -/
theorem C1_counterexample :
    ¬ ∀ (responses : List (String × List RawProduct)), ∀ d ∈ apiDeals responses,
        d.salePrice < d.regularPrice ∧ 0 ≤ d.pctOff ∧ d.pctOff ≤ 100 := by
  intro h
  have hmem : overpricedDeal ∈ apiDeals [("dairy", [promoAboveRegular])] := by
    rw [apiDeals_single mkDeal_promoAboveRegular]
    exact List.mem_singleton.mpr rfl
  have hd := h [("dairy", [promoAboveRegular])] overpricedDeal hmem
  have h3 : (3 : ℚ) < 2 := hd.1
  norm_num at h3

/-- C1 (amended): every DealItem in the aggregated `/api/deals` output
whose sale price is below its regular price — equivalently, produced from a
record with `0 < promo < regular`; the `promo > 0` filter also admits
records with `promo ≥ regular`, which violate the invariant — satisfies
`0 ≤ percentOff ≤ 100`, where `percentOff` is the half-up rounding of
`(regular - sale) / regular * 100`. -/
theorem C1_percentOff_bounds {responses : List (String × List RawProduct)}
    {d : DealItem} (hmem : d ∈ apiDeals responses)
    (hlt : d.salePrice < d.regularPrice) :
    0 ≤ d.pctOff ∧ d.pctOff ≤ 100 := by
  rcases mem_apiDeals hmem with ⟨cat, p, hp⟩
  rcases mkDeal_some hp with ⟨hpos, hpct⟩
  have hr : 0 < d.regularPrice := lt_trans hpos hlt
  have hq0 : 0 < (d.regularPrice - d.salePrice) / d.regularPrice * 100 := by
    apply mul_pos _ (by norm_num)
    exact div_pos (by linarith) hr
  have hq1 : (d.regularPrice - d.salePrice) / d.regularPrice * 100 < 100 := by
    have h1 : (d.regularPrice - d.salePrice) / d.regularPrice < 1 := by
      rw [div_lt_one hr]
      linarith
    nlinarith
  rw [hpct]
  exact jsRound_mem_Icc hq0 hq1

/-- C1 (witness): the amended invariant evaluated on a concrete genuine
sale (regular 4, promo 3, percent-off 25). -/
theorem C1_witness : 0 ≤ milkDeal.pctOff ∧ milkDeal.pctOff ≤ 100 :=
  @C1_percentOff_bounds [("dairy", [milkOnSale])] milkDeal
    (by rw [apiDeals_single mkDeal_milk]; exact List.mem_singleton.mpr rfl)
    (by rw [milkDeal]; norm_num)

/-! ## Claim C2 -/

/-- C2: every aggregated `/api/deals` output is sorted non-increasingly by
`percentOff`; items with equal `percentOff` retain their relative input
order (the filtered subsequence at any percent-off value is a sublist of
the input's); and the output length is capped at 200. -/
theorem C2_sorted_stable_capped (responses : List (String × List RawProduct)) :
    (apiDeals responses).Pairwise (fun a b => b.pctOff ≤ a.pctOff) ∧
    (apiDeals responses).length ≤ 200 ∧
    ∀ v : ℤ,
      ((apiDeals responses).filter fun d => d.pctOff == v).Sublist
        ((responses.flatMap fun cr => dealsOfData cr.1 cr.2).filter fun d =>
          d.pctOff == v) := by
  refine ⟨?_, ?_, ?_⟩
  · exact List.Pairwise.sublist (List.take_sublist _ _) (sortDesc_pairwise _)
  · show (aggregateDeals _).length ≤ 200
    rw [aggregateDeals, List.length_take]
    exact min_le_left _ _
  · intro v
    have h1 := (List.take_sublist 200
      (sortDesc (dedupById (responses.flatMap fun cr => dealsOfData cr.1 cr.2)))).filter
      (fun d => d.pctOff == v)
    rw [filter_sortDesc] at h1
    exact h1.trans ((dedupGo_sublist [] _).filter _)

/-! ## Claim C3 -/

set_option maxRecDepth 100000 in
/-- C3 (counterexample): the input `manyDeals` contains two records with
identifier 200, yet the aggregated output contains no entry with that
identifier: its only deduplicated entry has the lowest percent-off of 201
distinct identifiers and the cap of 200 cuts it away.  So "the aggregated
output contains exactly one entry for that identifier" fails. -/
theorem C3_counterexample :
    manyDeals.countP (fun d => d.id == 200) = 2 ∧
    (aggregateDeals manyDeals).countP (fun d => d.id == 200) = 0 := by
  constructor
  · decide
  · decide

/-- C3 (amended): every entry of the aggregated output is the first
occurrence of its identifier in the input; no two entries of the output
share an identifier (so each identifier has at most one entry after the cap
of 200); and before the cap the deduplicated sequence contains exactly the
first occurrence of every identifier present. -/
theorem C3_dedup_first_occurrence (xs : List DealItem) :
    (∀ d ∈ aggregateDeals xs, xs.find? (fun e => e.id == d.id) = some d) ∧
    (aggregateDeals xs).Pairwise (fun a b => a.id ≠ b.id) ∧
    (∀ i : Nat, (dedupById xs).filter (fun d => d.id == i) =
      (xs.find? (fun d => d.id == i)).toList) ∧
    (∀ i : Nat, (aggregateDeals xs).countP (fun d => d.id == i) ≤ 1) := by
  have hpair : (aggregateDeals xs).Pairwise (fun a b => a.id ≠ b.id) := by
    apply List.Pairwise.sublist (List.take_sublist _ _)
    exact ((sortDesc_perm _).pairwise_iff fun h => Ne.symm h).mpr (dedupGo_pairwise [] xs)
  refine ⟨?_, hpair, ?_, ?_⟩
  · intro d hd
    have h1 := List.mem_of_mem_take hd
    have h2 := (sortDesc_perm _).mem_iff.mp h1
    exact mem_dedupGo_find h2
  · intro i
    exact dedupGo_filter xs (by simp)
  · intro i
    exact pairwise_countP_le_one hpair

/-- C3 (witness): on a concrete input with a duplicated identifier, the
surviving entry for id 1 is the first occurrence. -/
theorem C3_witness :
    [sampleDeal 1 5, sampleDeal 1 9, sampleDeal 2 3].find?
      (fun e => e.id == (sampleDeal 1 5).id) = some (sampleDeal 1 5) :=
  (C3_dedup_first_occurrence [sampleDeal 1 5, sampleDeal 1 9, sampleDeal 2 3]).1
    (sampleDeal 1 5) (by decide)

/-! ## Claim C4 -/

theorem match_thigh : matchDeal [chickenSale] ⟨"chicken thigh"⟩ = some chickenSale := by
  decide

theorem match_wings : matchDeal [chickenSale] ⟨"chicken wings"⟩ = some chickenSale := by
  decide

/-- C4 (counterexample): with the single sale item "chicken breast"
(savings 2) and a recipe using the two ingredients "chicken thigh" and
"chicken wings", both ingredients match the same sale item, so the code's
`totalSavings` is 4 while the sum of `savingsAmount` over the *distinct*
matched sale items is 2: the claim that `totalSavings` counts each distinct
sale item at most once is false. -/
theorem C4_counterexample :
    (enrichTotals [chickenSale] [⟨"chicken thigh"⟩, ⟨"chicken wings"⟩]).2 = 4 ∧
    specDistinctSavings [chickenSale] [⟨"chicken thigh"⟩, ⟨"chicken wings"⟩] = 2 := by
  constructor
  · rw [enrichTotals_eq]
    simp only [List.filterMap_cons, List.filterMap_nil, match_thigh, match_wings,
      List.map_cons, List.map_nil, List.sum_cons, List.sum_nil]
    rw [chickenSale]
    norm_num
  · rw [specDistinctSavings]
    simp only [List.filterMap_cons, List.filterMap_nil, match_thigh, match_wings]
    rw [(by decide : ([chickenSale, chickenSale]).dedup = [chickenSale])]
    simp only [List.map_cons, List.map_nil, List.sum_cons, List.sum_nil]
    rw [chickenSale]
    norm_num

/-- C4 (amended): an ingredient matches some sale item exactly when the
lowercase first token of the ingredient name occurs as a substring of the
lowercase name of some sale item, and the item actually attributed also
contains that token; a coupon matches exactly when that token occurs in the
lowercase `description + " " + brand` string; and `totalSavings` is the sum
of `savingsAmount` over all matched recipe ingredients — one contribution
per matching ingredient, so a sale item matched by several ingredients of
the same recipe is counted once per ingredient, not once overall. -/
theorem C4_matching_and_savings :
    (∀ (ings : List SaleIng) (ri : RecipeIng),
      (matchDeal ings ri).isSome = true ↔
        ∃ i ∈ ings, ∃ u v, u ++ firstTok ri.name ++ v = lowerChars i.name) ∧
    (∀ (ings : List SaleIng) (ri : RecipeIng) (d : SaleIng),
      matchDeal ings ri = some d →
        d ∈ ings ∧ ∃ u v, u ++ firstTok ri.name ++ v = lowerChars d.name) ∧
    (∀ (used : List RecipeIng) (c : Coupon),
      couponMatch used c = true ↔
        ∃ ri ∈ used, ∃ u v,
          u ++ firstTok ri.name ++ v = lowerChars (c.description ++ " " ++ c.brand)) ∧
    (∀ (ings : List SaleIng) (used : List RecipeIng),
      (enrichTotals ings used).2 =
        ((used.filterMap (matchDeal ings)).map fun d => d.savings).sum ∧
      (enrichTotals ings used).1 = (used.filterMap (matchDeal ings)).map mkUsed) :=
  ⟨fun _ _ => matchDeal_isSome_iff, fun _ _ _ h => matchDeal_some h,
   fun _ _ => couponMatch_iff,
   fun ings used => by rw [enrichTotals_eq]; exact ⟨rfl, rfl⟩⟩

/-- C4 (witness): the attributed item for "chicken thigh" is the sale item
"chicken breast", whose lowercase name contains the token "chicken". -/
theorem C4_witness :
    chickenSale ∈ [chickenSale] ∧
    ∃ u v, u ++ firstTok "chicken thigh" ++ v = lowerChars chickenSale.name :=
  C4_matching_and_savings.2.1 [chickenSale] ⟨"chicken thigh"⟩ chickenSale match_thigh

/-! ## Claim C5 -/

/-- C5: for every raw record surviving the promo filter (with a genuine
positive regular price), the produced `percentOff` is the half-up rounding
of `(regular - promo) / regular * 100`: it is the unique integer `n` with
`n - 1/2 ≤ percentage < n + 1/2`. -/
theorem C5_pctOff_round_half_up {cat : String} {p : RawProduct} {d : DealItem}
    (h : mkDeal cat p = some d) (_hreg : 0 < d.regularPrice) :
    (d.pctOff : ℚ) - 1/2 ≤ (d.regularPrice - d.salePrice) / d.regularPrice * 100 ∧
    (d.regularPrice - d.salePrice) / d.regularPrice * 100 < (d.pctOff : ℚ) + 1/2 := by
  rcases mkDeal_some h with ⟨-, hpct⟩
  rw [hpct]
  exact jsRound_bounds _

/-- C5 (witness): the rounding characterisation evaluated on the concrete
sale (regular 4, promo 3): 24.5 ≤ 25 < 25.5. -/
theorem C5_witness :
    (milkDeal.pctOff : ℚ) - 1/2 ≤
      (milkDeal.regularPrice - milkDeal.salePrice) / milkDeal.regularPrice * 100 ∧
    (milkDeal.regularPrice - milkDeal.salePrice) / milkDeal.regularPrice * 100 <
      (milkDeal.pctOff : ℚ) + 1/2 :=
  @C5_pctOff_round_half_up "dairy" milkOnSale milkDeal mkDeal_milk
    (by rw [milkDeal]; norm_num)

/-! ## Claim C6 -/

/-- C6: a raw record whose promotional price is absent (missing `items`,
missing `price`, missing `promo`) or not strictly positive produces no
DealItem: its mapping is `none`, and deleting the record from a category
response leaves the produced deal list unchanged. -/
theorem C6_nonpositive_promo_dropped (cat : String) (p : RawProduct)
    (hq : ∀ q : ℚ, promoOf p = some q → q ≤ 0) :
    mkDeal cat p = none ∧
    ∀ pre suf : List RawProduct,
      dealsOfData cat (pre ++ p :: suf) = dealsOfData cat (pre ++ suf) := by
  have hnone : mkDeal cat p = none := by
    rw [mkDeal]
    split
    next => rfl
    next item hitem =>
      split
      next => rfl
      next pr hpr =>
        split
        next => rfl
        next promo hpromo =>
          have hq' : promo ≤ 0 := by
            apply hq
            rw [promoOf, hitem]
            simp [hpr, hpromo]
          rw [if_neg (not_lt.mpr hq')]
  refine ⟨hnone, fun pre suf => ?_⟩
  rw [dealsOfData, dealsOfData, List.filterMap_append, List.filterMap_append,
    List.filterMap_cons, hnone]

/-- C6 (witness): a record with promo 0 produces nothing, and removing it
from a response next to a genuine sale changes nothing. -/
theorem C6_witness :
    mkDeal "snacks" freeSample = none ∧
    dealsOfData "snacks" ([milkOnSale] ++ freeSample :: []) =
      dealsOfData "snacks" ([milkOnSale] ++ []) := by
  have hq : ∀ q : ℚ, promoOf freeSample = some q → q ≤ 0 := by
    intro q hq'
    have h' : some (0 : ℚ) = some q := hq'
    exact le_of_eq (Option.some.inj h').symm
  have h := C6_nonpositive_promo_dropped "snacks" freeSample hq
  exact ⟨h.1, h.2 [milkOnSale] []⟩

/-! ## Claim C7 -/

/-- C7: for every category list and batch size `b > 0`, the fan-out's
chunking partitions the list into consecutive chunks (their concatenation
is the input, chunk `i` is exactly elements `i*b..i*b+b-1`), issues exactly
`⌈n/b⌉ = (n + b - 1) / b` batches, each chunk holds at most `b` requests,
and every chunk but the last holds exactly `b`.  Chunks are processed
strictly in sequence by the fold of `fetchDeals` (the temporal
"chunk `i+1` starts only after chunk `i` settles" is the sequential `await`
of the source loop and has no further content in a pure model). -/
theorem C7_batching (b : Nat) (l : List String) (hb : 0 < b) :
    (chunksOf b l).flatten = l ∧
    (chunksOf b l).length = (l.length + b - 1) / b ∧
    (∀ c ∈ chunksOf b l, c.length ≤ b) ∧
    (∀ i (h : i < (chunksOf b l).length),
      (chunksOf b l).get ⟨i, h⟩ = (l.drop (i * b)).take b) ∧
    (∀ i (h : i < (chunksOf b l).length), i + 1 < (chunksOf b l).length →
      ((chunksOf b l).get ⟨i, h⟩).length = b) :=
  ⟨chunksOf_flatten b l hb, chunksOf_length b l hb, chunksOf_mem_le b l,
   chunksOf_get b l hb, fun i h hl => chunksOf_get_full b l hb i h hl⟩

/-- C7 (witness): the concrete chunking of the 63 fixed categories with
batch size 8: the chunks reassemble the list and there are ⌈63/8⌉ = 8
batches. -/
theorem C7_witness :
    (chunksOf 8 DEAL_CATEGORIES).flatten = DEAL_CATEGORIES ∧
    (chunksOf 8 DEAL_CATEGORIES).length = (DEAL_CATEGORIES.length + 8 - 1) / 8 :=
  ⟨(C7_batching 8 DEAL_CATEGORIES (by norm_num)).1,
   (C7_batching 8 DEAL_CATEGORIES (by norm_num)).2.1⟩

/-! ## Claim C8 -/

theorem runCats_cons (f : String → Option (List RawProduct)) (c : String)
    (cs : List String) :
    runCats f (c :: cs) =
      (match f c with
       | none => []
       | some data => dealsOfData c data) ++ runCats f cs := by
  rw [runCats, runCats, List.flatMap_cons]

theorem runCats_append (f : String → Option (List RawProduct))
    (l1 l2 : List String) :
    runCats f (l1 ++ l2) = runCats f l1 ++ runCats f l2 := by
  rw [runCats, runCats, runCats, List.flatMap_append]

/-- C8: the aggregation of per-category fetch results never fails:
it is a total function; the empty category list yields the empty output;
failed categories (`f c = none` — non-success status or transport error)
contribute nothing, so the run over any category list equals the run over
just its successful categories; and the batched `fetchDeals` equals the
plain sequential run, so batches with failures still deliver all successful
results. -/
theorem C8_failed_fetches_dropped (f : String → Option (List RawProduct)) :
    runCats f [] = [] ∧
    (∀ cats : List String,
      runCats f cats = runCats f (cats.filter fun c => (f c).isSome)) ∧
    fetchDeals f = runCats f DEAL_CATEGORIES := by
  refine ⟨rfl, ?_, ?_⟩
  · intro cats
    induction cats with
    | nil => rfl
    | cons c cs ih =>
      rw [runCats_cons, List.filter_cons]
      cases hf : f c with
      | none =>
        simp only [hf, Option.isSome_none, Bool.false_eq_true, if_false,
          List.nil_append]
        exact ih
      | some data =>
        simp only [hf, Option.isSome_some, if_true]
        rw [runCats_cons, hf]
        rw [ih]
  · have hjoin : ∀ L : List (List String),
        L.flatMap (runCats f) = runCats f L.flatten := by
      intro L
      induction L with
      | nil => rfl
      | cons c cs ih =>
        rw [List.flatMap_cons, List.flatten_cons, ih, runCats_append]
    rw [fetchDeals, hjoin, chunksOf_flatten 8 DEAL_CATEGORIES (by norm_num)]

/-! ## Claim C9 -/

/-- C9: the expiry check before a dependent request: when
`now ≥ expiresAt` exactly one refresh call is made and the stored
credential's `accessToken` and `expiresAt` are replaced (the refresh token
is kept); when the expiry is in the future zero refresh calls are made and
the credential is returned unchanged. -/
theorem C9_token_refresh (now : ℤ) (r : TokenResponse) (c : Credential) :
    (c.expiresAt ≤ now →
      ensureValid now r c =
        ({ accessToken := r.access_token, refreshToken := c.refreshToken,
           expiresAt := now + r.expires_in * 1000 }, 1)) ∧
    (now < c.expiresAt → ensureValid now r c = (c, 0)) := by
  constructor
  · intro h
    rw [ensureValid, if_pos h]
  · intro h
    rw [ensureValid, if_neg (not_le.mpr h)]

/-- C9 (witness): a token expired at 50 checked at time 100 is refreshed
exactly once (new expiry 100 + 3600·1000); a token expiring at 200 checked
at 100 is untouched with zero calls. -/
theorem C9_witness :
    ensureValid 100 ⟨"new", 3600⟩ ⟨"old", "r", 50⟩ =
      ({ accessToken := "new", refreshToken := "r",
         expiresAt := 100 + 3600 * 1000 }, 1) ∧
    ensureValid 100 ⟨"new", 3600⟩ ⟨"old", "r", 200⟩ = (⟨"old", "r", 200⟩, 0) :=
  ⟨(C9_token_refresh 100 ⟨"new", 3600⟩ ⟨"old", "r", 50⟩).1 (by norm_num),
   (C9_token_refresh 100 ⟨"new", 3600⟩ ⟨"old", "r", 200⟩).2 (by norm_num)⟩

/-! ## Claim C10 -/

theorem lookup_filterMap_not_mem {α : Type} {body : String → Option α} {k : String}
    (fields : List String) (hk : k ∉ fields) :
    ((fields.filterMap fun f => (body f).map fun v => (f, v)).lookup k :
      Option α) = none := by
  induction fields with
  | nil => rfl
  | cons f fs ih =>
    have hkf : (k == f) = false := by
      simp only [beq_eq_false_iff_ne]
      intro heq
      exact hk (heq ▸ List.mem_cons_self _ _)
    have hk' : k ∉ fs := fun h => hk (List.mem_cons_of_mem _ h)
    rw [List.filterMap_cons]
    cases hb : body f with
    | none => exact ih hk'
    | some v =>
      simp only [Option.map_some']
      rw [List.lookup_cons, hkf]
      exact ih hk'

theorem lookup_filterMap_mem {α : Type} {body : String → Option α} {k : String}
    {v : α} (fields : List String) (hnd : fields.Nodup) (hk : k ∈ fields)
    (hv : body k = some v) :
    ((fields.filterMap fun f => (body f).map fun w => (f, w)).lookup k :
      Option α) = some v := by
  induction fields with
  | nil => simp at hk
  | cons f fs ih =>
    rcases List.mem_cons.mp hk with rfl | hk'
    · rw [List.filterMap_cons, hv]
      simp only [Option.map_some']
      rw [List.lookup_cons, beq_self_eq_true]
    · have hnd' := (List.nodup_cons.mp hnd).2
      have hfk : (k == f) = false := by
        simp only [beq_eq_false_iff_ne]
        intro heq
        exact (List.nodup_cons.mp hnd).1 (heq ▸ hk')
      rw [List.filterMap_cons]
      cases hb : body f with
      | none => exact ih hnd' hk'
      | some w =>
        simp only [Option.map_some']
        rw [List.lookup_cons, hfk]
        exact ih hnd' hk'

theorem lookup_append_none {α : Type} {k : String} {l1 l2 : List (String × α)}
    (h : l1.lookup k = none) : (l1 ++ l2).lookup k = l2.lookup k := by
  induction l1 with
  | nil => rfl
  | cons e es ih =>
    rcases e with ⟨f, v⟩
    rw [List.lookup_cons] at h
    rw [List.cons_append, List.lookup_cons]
    cases hkf : (k == f) with
    | true =>
      rw [hkf] at h
      exact Option.noConfusion h
    | false =>
      rw [hkf] at h
      exact ih h

theorem lookup_append_some {α : Type} {k : String} {v : α}
    {l1 l2 : List (String × α)} (h : l1.lookup k = some v) :
    (l1 ++ l2).lookup k = some v := by
  induction l1 with
  | nil => simp at h
  | cons e es ih =>
    rcases e with ⟨f, v'⟩
    rw [List.lookup_cons] at h
    rw [List.cons_append, List.lookup_cons]
    cases hkf : (k == f) with
    | true =>
      rw [hkf] at h
      exact h
    | false =>
      rw [hkf] at h
      exact ih h

/-- C10: the profile PATCH writes only the five whitelisted fields plus the
server-set `updated_at`: any column not in the whitelist and different from
`updated_at` keeps its stored value no matter what the request body holds;
a whitelisted column present in the body gets the body's value; and
`updated_at` gets the server timestamp. -/
theorem C10_patch_whitelist {α : Type} (row body : String → Option α) (now : α) :
    (∀ k, k ∉ allowedFields → k ≠ "updated_at" →
      patchProfile row body now k = row k) ∧
    (∀ k v, k ∈ allowedFields → body k = some v →
      patchProfile row body now k = some v) ∧
    patchProfile row body now "updated_at" = some now := by
  refine ⟨?_, ?_, ?_⟩
  · intro k hk hku
    rw [patchProfile, applyUpdates, buildUpdates,
      lookup_append_none (lookup_filterMap_not_mem allowedFields hk)]
    rw [List.lookup_cons]
    have hku' : (k == "updated_at") = false := by
      simp only [beq_eq_false_iff_ne]
      exact hku
    rw [hku']
    rfl
  · intro k v hk hv
    rw [patchProfile, applyUpdates, buildUpdates,
      lookup_append_some (lookup_filterMap_mem allowedFields (by decide) hk hv)]
  · rw [patchProfile, applyUpdates, buildUpdates,
      lookup_append_none (lookup_filterMap_not_mem allowedFields (by decide))]
    rw [List.lookup_cons, beq_self_eq_true]

/-- C10 (witness): with a body that supplies a junk value for every
column, the handler still leaves the non-whitelisted column `email`
untouched, writes the whitelisted `full_name`, and sets `updated_at` to the
server timestamp. -/
theorem C10_witness :
    patchProfile (fun _ => some "stored")
      (fun k => if k = "full_name" then some "Ada" else some "junk")
      "2025-01-01" "email" = some "stored" ∧
    patchProfile (fun _ => some "stored")
      (fun k => if k = "full_name" then some "Ada" else some "junk")
      "2025-01-01" "full_name" = some "Ada" ∧
    patchProfile (fun _ => some "stored")
      (fun k => if k = "full_name" then some "Ada" else some "junk")
      "2025-01-01" "updated_at" = some "2025-01-01" :=
  ⟨(C10_patch_whitelist (fun _ => some "stored")
      (fun k => if k = "full_name" then some "Ada" else some "junk")
      "2025-01-01").1 "email" (by decide) (by decide),
   (C10_patch_whitelist (fun _ => some "stored")
      (fun k => if k = "full_name" then some "Ada" else some "junk")
      "2025-01-01").2.1 "full_name" "Ada" (by decide) (by decide),
   (C10_patch_whitelist (fun _ => some "stored")
      (fun k => if k = "full_name" then some "Ada" else some "junk")
      "2025-01-01").2.2⟩

end DealsToMeals
